import Mathlib

/-!
# Verification of the httpfile deduplicating store

A shallow embedding of the core of the `httpfile` repository: the rolling
checksum and chunker (`doRoll`), the content-addressed chunk store, the
metadata store, the `chunkedReader` with its `Read`/`Seek` methods, and the
`dedupStore` facade operations `Post`, `Get`, `Delete`.

Strings are embedded as `List Char`, bytes as `Fin 256`, file modification
times as `Int`, and the filesystem as association lists from root-relative
component paths to file records.  Fallible filesystem operations are driven
by an explicit oracle that says which operation fails, so that error paths
of `Post` can be explored; the all-success oracle recovers the happy path.
-/

set_option maxRecDepth 10000

abbrev Byte := Fin 256

/-! ## Hex encoding (`encoding/hex.EncodeToString`) -/

/-- The sixteen lowercase hex digits, in value order. -/
def hexAlphabet : List Char := "0123456789abcdef".toList

/-- Hex digit for a value below 16. -/
def hexDigitChar (n : Nat) : Char := hexAlphabet.getD n '0'

/-- Model of `hex.EncodeToString`: two lowercase hex digits per byte, high nibble first. -/
def hexEncode : List Byte → List Char
  | [] => []
  | b :: rest => hexDigitChar (b.val / 16) :: hexDigitChar (b.val % 16) :: hexEncode rest

theorem hexEncode_length (l : List Byte) : (hexEncode l).length = 2 * l.length := by
  induction l with
  | nil => rfl
  | cons b rest ih => simp [hexEncode, ih]; ring

theorem hexDigitChar_mem (n : Nat) (h : n < 16) : hexDigitChar n ∈ hexAlphabet := by
  interval_cases n <;> decide

theorem hexEncode_subset (l : List Byte) : ∀ c ∈ hexEncode l, c ∈ hexAlphabet := by
  induction l with
  | nil => intro c hc; cases hc
  | cons b rest ih =>
    intro c hc
    simp only [hexEncode, List.mem_cons] at hc
    rcases hc with h | h | h
    · exact h ▸ hexDigitChar_mem _ (Nat.div_lt_of_lt_mul b.isLt)
    · exact h ▸ hexDigitChar_mem _ (Nat.mod_lt _ (by norm_num))
    · exact ih c h

/-! ## SHA-256 (`crypto/sha256.Sum256`)

The Go code hashes each chunk with SHA-256 from the standard library; the
function is reproduced here (FIPS 180-4) over `Nat` with explicit reduction
modulo `2 ^ 32`. -/

def sha256K : List Nat :=
  [1116352408, 1899447441, 3049323471, 3921009573, 961987163, 1508970993,
   2453635748, 2870763221, 3624381080, 310598401, 607225278, 1426881987,
   1925078388, 2162078206, 2614888103, 3248222580, 3835390401, 4022224774,
   264347078, 604807628, 770255983, 1249150122, 1555081692, 1996064986,
   2554220882, 2821834349, 2952996808, 3210313671, 3336571891, 3584528711,
   113926993, 338241895, 666307205, 773529912, 1294757372, 1396182291,
   1695183700, 1986661051, 2177026350, 2456956037, 2730485921, 2820302411,
   3259730800, 3345764771, 3516065817, 3600352804, 4094571909, 275423344,
   430227734, 506948616, 659060556, 883997877, 958139571, 1322822218,
   1537002063, 1747873779, 1955562222, 2024104815, 2227730452, 2361852424,
   2428436474, 2756734187, 3204031479, 3329325298]

def mod32 (x : Nat) : Nat := x % 2 ^ 32

def rotr32 (x k : Nat) : Nat := mod32 ((x >>> k) ||| (x <<< (32 - k)))

def shaCh (e f g : Nat) : Nat := (e &&& f) ^^^ ((e ^^^ (2 ^ 32 - 1)) &&& g)

def shaMaj (a b c : Nat) : Nat := (a &&& b) ^^^ (a &&& c) ^^^ (b &&& c)

def shaBigSigma0 (x : Nat) : Nat := rotr32 x 2 ^^^ rotr32 x 13 ^^^ rotr32 x 22

def shaBigSigma1 (x : Nat) : Nat := rotr32 x 6 ^^^ rotr32 x 11 ^^^ rotr32 x 25

def shaSmallSigma0 (x : Nat) : Nat := rotr32 x 7 ^^^ rotr32 x 18 ^^^ (x >>> 3)

def shaSmallSigma1 (x : Nat) : Nat := rotr32 x 17 ^^^ rotr32 x 19 ^^^ (x >>> 10)

/-- Message padding: append `0x80`, zeros to 56 mod 64 bytes, then the
64-bit big-endian bit length. -/
def sha256Pad (msg : List Byte) : List Byte :=
  let len := msg.length
  let zeros := (64 + 55 - len % 64) % 64
  let bitLen := 8 * len
  msg ++ (128 : Byte) :: List.replicate zeros (0 : Byte) ++
    [⟨bitLen / 2 ^ 56 % 256, Nat.mod_lt _ (by norm_num)⟩,
     ⟨bitLen / 2 ^ 48 % 256, Nat.mod_lt _ (by norm_num)⟩,
     ⟨bitLen / 2 ^ 40 % 256, Nat.mod_lt _ (by norm_num)⟩,
     ⟨bitLen / 2 ^ 32 % 256, Nat.mod_lt _ (by norm_num)⟩,
     ⟨bitLen / 2 ^ 24 % 256, Nat.mod_lt _ (by norm_num)⟩,
     ⟨bitLen / 2 ^ 16 % 256, Nat.mod_lt _ (by norm_num)⟩,
     ⟨bitLen / 2 ^ 8 % 256, Nat.mod_lt _ (by norm_num)⟩,
     ⟨bitLen % 256, Nat.mod_lt _ (by norm_num)⟩]

/-- Big-endian 32-bit words from a byte stream (length a multiple of 4). -/
def bytesToWords : List Byte → List Nat
  | b0 :: b1 :: b2 :: b3 :: rest =>
      (b0.val * 2 ^ 24 + b1.val * 2 ^ 16 + b2.val * 2 ^ 8 + b3.val) :: bytesToWords rest
  | _ => []

/-- Extend the 16 block words to the 64-entry message schedule. -/
def sha256Extend (ws : List Nat) (count : Nat) : List Nat :=
  match count with
  | 0 => ws
  | c + 1 =>
      let t := ws.length
      let w := mod32 (shaSmallSigma1 (ws.getD (t - 2) 0) + ws.getD (t - 7) 0 +
        shaSmallSigma0 (ws.getD (t - 15) 0) + ws.getD (t - 16) 0)
      sha256Extend (ws ++ [w]) c

structure ShaState where
  a : Nat
  b : Nat
  c : Nat
  d : Nat
  e : Nat
  f : Nat
  g : Nat
  h : Nat
deriving DecidableEq

def sha256Round (st : ShaState) (kw : Nat × Nat) : ShaState :=
  let t1 := mod32 (st.h + shaBigSigma1 st.e + shaCh st.e st.f st.g + kw.1 + kw.2)
  let t2 := mod32 (shaBigSigma0 st.a + shaMaj st.a st.b st.c)
  ⟨mod32 (t1 + t2), st.a, st.b, st.c, mod32 (st.d + t1), st.e, st.f, st.g⟩

def sha256Block (st : ShaState) (block : List Byte) : ShaState :=
  let ws := sha256Extend (bytesToWords block) 48
  let r := (sha256K.zip ws).foldl sha256Round st
  ⟨mod32 (st.a + r.a), mod32 (st.b + r.b), mod32 (st.c + r.c), mod32 (st.d + r.d),
   mod32 (st.e + r.e), mod32 (st.f + r.f), mod32 (st.g + r.g), mod32 (st.h + r.h)⟩

def sha256Blocks (st : ShaState) (msg : List Byte) (fuel : Nat) : ShaState :=
  match fuel with
  | 0 => st
  | fuel + 1 =>
      match msg with
      | [] => st
      | _ => sha256Blocks (sha256Block st (msg.take 64)) (msg.drop 64) fuel

def sha256Init : ShaState :=
  ⟨1779033703, 3144134277, 1013904242, 2773480762, 1359893119, 2600822924, 528734635, 1541459225⟩

/-- Big-endian bytes of one 32-bit word. -/
def wordBytes (w : Nat) : List Byte :=
  [⟨w / 2 ^ 24 % 256, Nat.mod_lt _ (by norm_num)⟩,
   ⟨w / 2 ^ 16 % 256, Nat.mod_lt _ (by norm_num)⟩,
   ⟨w / 2 ^ 8 % 256, Nat.mod_lt _ (by norm_num)⟩,
   ⟨w % 256, Nat.mod_lt _ (by norm_num)⟩]

/-- Model of `sha256.Sum256`: the 32-byte SHA-256 digest of a message. -/
def sha256Sum (msg : List Byte) : List Byte :=
  let padded := sha256Pad msg
  let st := sha256Blocks sha256Init padded (padded.length / 64 + 1)
  wordBytes st.a ++ wordBytes st.b ++ wordBytes st.c ++ wordBytes st.d ++
    wordBytes st.e ++ wordBytes st.f ++ wordBytes st.g ++ wordBytes st.h

/-- The digest rendered as 64 lowercase hex characters, as the Go code does
with `hex.EncodeToString(chunkHash[:])`. -/
def sha256Hex (msg : List Byte) : List Char := hexEncode (sha256Sum msg)

/-! ## RollSum — rolling checksum with split predicate

The repository calls `NewRollSum`, `Roll`, `Digest`, `OnSplit` and the
constant `windowSize` (see the test file), but the file defining them is not
under `src/`; the component is therefore modelled from the spec. -/

/-- Modelled from the spec: the RollSum window size W = 64 bytes (§4.1); the
implementation file defining `windowSize` is missing from `src/`. -/
def windowSize : Nat := 64

/-- Modelled from the spec: the Adler-32-style constant offset C = 31 (§4.1). -/
def charOffset : Nat := 31

/-- Modelled from the spec: RollSum state, the pair of accumulators
`A = Σ (wᵢ + C)` and `B = Σ (W − i)·(wᵢ + C)` over the sliding window, with
the window conceptually left-padded with zeros (§4.1).  The implementation
file is missing from `src/`. -/
structure RollSum where
  s1 : Nat
  s2 : Nat
  window : List Byte
deriving DecidableEq

/-- Modelled from the spec: the initial state has a window of W zero bytes,
so `A = W·C` and `B = C·(W + (W−1) + ⋯ + 1) = C·W·(W+1)/2` (§4.1). -/
def NewRollSum : RollSum :=
  ⟨windowSize * charOffset, charOffset * (windowSize * (windowSize + 1) / 2),
   List.replicate windowSize (0 : Byte)⟩

/-- Modelled from the spec: on rolling in byte `x` with departing byte `d`,
`A ← A − d + x` and `B ← B − W·(d + C) + A`, all modulo `2 ^ 32` (§4.1).
`2 ^ 32` summands keep the `Nat` subtractions exact. -/
def RollSum.Roll (rs : RollSum) (b : Byte) : RollSum :=
  let d : Nat := (rs.window.headD 0).val
  let s1 := (rs.s1 + 2 ^ 32 + b.val - d) % 2 ^ 32
  let s2 := (rs.s2 + s1 + 2 ^ 32 - windowSize * (d + charOffset)) % 2 ^ 32
  ⟨s1, s2, rs.window.tail ++ [b]⟩

/-- Modelled from the spec: `digest = (A & 0xFFFF) | (B << 16)` truncated to
32 bits (§4.1). -/
def RollSum.Digest (rs : RollSum) : Nat := rs.s1 % 2 ^ 16 + rs.s2 % 2 ^ 16 * 2 ^ 16

/-- Modelled from the spec: split when the low 13 bits of the digest are all
ones (§4.1). -/
def RollSum.OnSplit (rs : RollSum) : Bool := rs.Digest % 2 ^ 13 = 2 ^ 13 - 1

/-! ## The chunker (`doRoll`, src/dedupstore.go:107–143)

`doRoll` reads bytes in order, appending each to `contentBuf` and rolling it
into the checksum; it emits a copy of `contentBuf` whenever `OnSplit`
reports a boundary, and emits the remaining buffer at EOF.  On a reader
error it emits the error instead of a final chunk.  The channel plumbing is
pure sequencing here: chunks arrive at the consumer in emission order,
followed by either EOF (`done`) or the error. -/

structure GoChunk where
  hash : List Char
  content : List Byte
deriving DecidableEq

/-- Model of `chunkit`: a chunk is the buffered content together with the hex-encoded
SHA-256 of that content. -/
def chunkit (contentBuf : List Byte) : GoChunk := ⟨sha256Hex contentBuf, contentBuf⟩

/-- The split-driven part of the `doRoll` loop: the chunks emitted at split
boundaries, and the in-flight buffer left when input ends. -/
def rollSplit (rs : RollSum) (contentBuf : List Byte) :
    List Byte → List (List Byte) × List Byte
  | [] => ([], contentBuf)
  | b :: rest =>
      let rs := rs.Roll b
      let contentBuf := contentBuf ++ [b]
      if rs.OnSplit then
        let (cs, leftover) := rollSplit rs [] rest
        (contentBuf :: cs, leftover)
      else rollSplit rs contentBuf rest

/-- Model of `doRoll` on a full input: the emitted chunk sequence, and whether the
run ended in a reader error.  At EOF the remaining buffer is emitted
unconditionally as a final chunk; on a reader error (`readFail`) the error
is emitted instead and no final chunk is produced. -/
def doRoll (input : List Byte) (readFail : Bool) : List GoChunk × Bool :=
  let (cs, leftover) := rollSplit NewRollSum [] input
  if readFail then (cs.map chunkit, true)
  else ((cs ++ [leftover]).map chunkit, false)

theorem rollSplit_join (l : List Byte) : ∀ (rs : RollSum) (buf : List Byte),
    ((rollSplit rs buf l).1).flatten ++ (rollSplit rs buf l).2 = buf ++ l := by
  induction l with
  | nil => intro rs buf; simp [rollSplit]
  | cons b rest ih =>
    intro rs buf
    simp only [rollSplit]
    by_cases h : (rs.Roll b).OnSplit
    · simp only [h, if_pos]
      have := ih (rs.Roll b) []
      cases heq : rollSplit (rs.Roll b) [] rest with
      | mk cs leftover =>
        simp only [heq] at this ⊢
        simp only [List.flatten, List.append_assoc] at this ⊢
        simp [this]
    · simp only [h, if_neg, Bool.false_eq_true, not_false_iff]
      have := ih (rs.Roll b) (buf ++ [b])
      simpa using this

theorem rollSplit_pieces_ne_nil (l : List Byte) : ∀ (rs : RollSum) (buf : List Byte),
    ∀ c ∈ (rollSplit rs buf l).1, c ≠ [] := by
  induction l with
  | nil => intro rs buf c hc; simp [rollSplit] at hc
  | cons b rest ih =>
    intro rs buf c hc
    simp only [rollSplit] at hc
    by_cases h : (rs.Roll b).OnSplit
    · simp only [h, if_pos] at hc
      cases heq : rollSplit (rs.Roll b) [] rest with
      | mk cs leftover =>
        simp only [heq] at hc
        rcases List.mem_cons.mp hc with rfl | hmem
        · simp
        · exact ih (rs.Roll b) [] c (by simpa [heq] using hmem)
    · simp only [h, if_neg, Bool.false_eq_true, not_false_iff] at hc
      exact ih (rs.Roll b) (buf ++ [b]) c hc

/-! ## Strings: `strings.Split`, `strings.Join`, `path.Base`, path components -/

/-- Case helper for `strings.Split`: prepend character `c` to the first
piece of an already-split tail. -/
def splitCons (c : Char) : List (List Char) → List (List Char)
  | [] => [[c]]
  | g :: gs => (c :: g) :: gs

/-- Model of `strings.Split(s, sep)` for a one-character separator: `splitChar sep s`
always returns at least one (possibly empty) piece. -/
def splitChar (sep : Char) : List Char → List (List Char)
  | [] => [[]]
  | c :: rest =>
      if c = sep then [] :: splitChar sep rest
      else splitCons c (splitChar sep rest)

/-- Model of `strings.Join(l, sep)` for a one-character separator. -/
def joinChar (sep : Char) : List (List Char) → List Char
  | [] => []
  | [x] => x
  | x :: xs => x ++ sep :: joinChar sep xs

theorem splitChar_ne_nil (sep : Char) (s : List Char) : splitChar sep s ≠ [] := by
  cases s with
  | nil => simp [splitChar]
  | cons c rest =>
    simp only [splitChar]
    by_cases h : c = sep
    · simp [h]
    · simp only [h, if_neg, not_false_iff]
      cases splitChar sep rest <;> simp [splitCons]

theorem splitChar_sepFree (sep : Char) (s : List Char) (hs : sep ∉ s) :
    splitChar sep s = [s] := by
  induction s with
  | nil => rfl
  | cons c rest ih =>
    simp only [List.mem_cons, not_or] at hs
    have hne : c = sep ↔ False := iff_false_intro (fun h => hs.1 h.symm)
    simp only [splitChar, hne, if_false]
    rw [ih hs.2]
    rfl

theorem splitChar_append (sep : Char) (x t : List Char) (hx : sep ∉ x) :
    splitChar sep (x ++ sep :: t) = x :: splitChar sep t := by
  induction x with
  | nil => simp [splitChar]
  | cons c rest ih =>
    simp only [List.mem_cons, not_or] at hx
    have hne : c = sep ↔ False := iff_false_intro (fun h => hx.1 h.symm)
    show splitChar sep (c :: (rest ++ sep :: t)) = _
    simp only [splitChar, hne, if_false]
    rw [ih hx.2]
    rfl

/-- Round trip: splitting a separator-joined non-empty list recovers it,
provided no element contains the separator. -/
theorem splitChar_joinChar (sep : Char) (l : List (List Char)) (hne : l ≠ [])
    (hfree : ∀ s ∈ l, sep ∉ s) : splitChar sep (joinChar sep l) = l := by
  induction l with
  | nil => exact absurd rfl hne
  | cons x xs ih =>
    cases xs with
    | nil => exact splitChar_sepFree sep x (hfree x (by simp))
    | cons y ys =>
      have hx : sep ∉ x := hfree x (by simp)
      show splitChar sep (x ++ sep :: joinChar sep (y :: ys)) = _
      rw [splitChar_append sep x _ hx, ih (by simp)]
      intro s hs
      exact hfree s (List.mem_cons_of_mem x hs)

theorem joinChar_getLast (sep : Char) (l : List (List Char)) (hne : l ≠ [])
    (hlast : ∀ s ∈ l, s ≠ []) (hfree : ∀ s ∈ l, sep ∉ s) :
    (joinChar sep l).getLast? ≠ some sep := by
  induction l with
  | nil => exact absurd rfl hne
  | cons x xs ih =>
    cases xs with
    | nil =>
      show x.getLast? ≠ some sep
      intro h
      have hx : x ≠ [] := hlast x (by simp)
      rw [List.getLast?_eq_getLast_of_ne_nil hx] at h
      have hmem := List.getLast_mem hx
      rw [Option.some_inj.mp h] at hmem
      exact hfree x (by simp) hmem
    | cons y ys =>
      show (x ++ sep :: joinChar sep (y :: ys)).getLast? ≠ some sep
      have hrec := ih (by simp) (fun s hs => hlast s (List.mem_cons_of_mem x hs))
        (fun s hs => hfree s (List.mem_cons_of_mem x hs))
      have hj : joinChar sep (y :: ys) ≠ [] := by
        have hy : y ≠ [] := hlast y (by simp)
        cases ys with
        | nil => exact hy
        | cons z zs => simp [joinChar]
      intro h
      apply hrec
      rw [← h, List.getLast?_append_cons]
      exact (List.getLast?_append_of_ne_nil [sep] hj).symm

/-! ## `sort.Search` — Go's binary search

`sort.Search(n, f)` returns the smallest index in `[0, n]` at which `f` is
true, assuming `f` is monotone (false then true); `n` if `f` is false
everywhere.  The loop keeps `i ≤ j` and halves the interval; it runs at most
`n` iterations, so fuel `n` suffices and the exhaustion branch is
unreachable. -/

def searchLoop (f : Nat → Bool) : Nat → Nat → Nat → Nat
  | 0, i, _ => i
  | fuel + 1, i, j =>
      if i < j then
        let h := (i + j) / 2
        if f h then searchLoop f fuel i h else searchLoop f fuel (h + 1) j
      else i

def sortSearch (n : Nat) (f : Nat → Bool) : Nat := searchLoop f n 0 n

theorem searchLoop_le (f : Nat → Bool) :
    ∀ fuel i j, i ≤ j → searchLoop f fuel i j ≤ j := by
  intro fuel
  induction fuel with
  | zero => intro i j hij; exact hij
  | succ fuel ih =>
    intro i j hij
    simp only [searchLoop]
    by_cases hlt : i < j
    · simp only [hlt, if_true]
      by_cases hf : f ((i + j) / 2)
      · simp only [hf, if_true]
        exact le_trans (ih i ((i + j) / 2) (by omega)) (by omega)
      · simp only [hf, if_false, Bool.false_eq_true]
        exact ih ((i + j) / 2 + 1) j (by omega)
    · simp only [hlt, if_false]
      exact hij

theorem sortSearch_le (n : Nat) (f : Nat → Bool) : sortSearch n f ≤ n :=
  searchLoop_le f n 0 n (Nat.zero_le n)

theorem searchLoop_spec (f : Nat → Bool) (n : Nat)
    (hmono : ∀ a b, a ≤ b → b < n → f a = true → f b = true) :
    ∀ fuel i j, i ≤ j → j ≤ n → j - i ≤ fuel →
    (∀ k, k < i → f k = false) → (∀ k, j ≤ k → k < n → f k = true) →
    (∀ k, k < searchLoop f fuel i j → f k = false) ∧
      (searchLoop f fuel i j < n → f (searchLoop f fuel i j) = true) := by
  intro fuel
  induction fuel with
  | zero =>
    intro i j hij hjn hfuel hlo hhi
    have : i = j := by omega
    subst this
    exact ⟨fun k hk => hlo k hk, fun hn => hhi _ le_rfl hn⟩
  | succ fuel ih =>
    intro i j hij hjn hfuel hlo hhi
    simp only [searchLoop]
    by_cases hlt : i < j
    · simp only [hlt, if_true]
      set h := (i + j) / 2 with hh
      by_cases hf : f h
      · simp only [hf, if_true]
        refine ih i h (by omega) (by omega) (by omega) hlo ?_
        intro k hk hkn
        exact hmono h k hk hkn hf
      · simp only [hf, if_false, Bool.false_eq_true]
        refine ih (h + 1) j (by omega) hjn (by omega) ?_ hhi
        intro k hk
        rcases Nat.lt_or_ge k i with hki | hki
        · exact hlo k hki
        · by_contra hcontra
          have : f k = true := by
            cases hfk : f k with
            | true => rfl
            | false => exact absurd hfk hcontra
          have : f h = true := hmono k h (by omega) (by omega) this
          simp [this] at hf
    · simp only [hlt, if_false]
      have : i = j := by omega
      subst this
      exact ⟨fun k hk => hlo k hk, fun hn => hhi _ le_rfl hn⟩

theorem sortSearch_spec (n : Nat) (f : Nat → Bool)
    (hmono : ∀ a b, a ≤ b → b < n → f a = true → f b = true) :
    (∀ k, k < sortSearch n f → f k = false) ∧
      (sortSearch n f < n → f (sortSearch n f) = true) :=
  searchLoop_spec f n hmono n 0 n (Nat.zero_le n) le_rfl (by omega)
    (by omega) (fun k hk hkn => by omega)

theorem sortSearch_all_false (n : Nat) (f : Nat → Bool)
    (hall : ∀ k, k < n → f k = false) : sortSearch n f = n := by
  have hmono : ∀ a b, a ≤ b → b < n → f a = true → f b = true := by
    intro a b hab hbn hfa
    have : f a = false := hall a (by omega)
    simp [this] at hfa
  have hspec := sortSearch_spec n f hmono
  have hle := sortSearch_le n f
  by_contra hne
  have hlt : sortSearch n f < n := by omega
  have := hspec.2 hlt
  have := hall _ hlt
  simp_all

/-! ## Filesystem model

Paths are root-relative lists of components.  `path.Join` + `path.Clean`
drop empty components, which `pathComponents` reproduces (`.`/`..` cleaning
is not modelled; the theorems stay inside the hex-named layout where those
never arise).  Chunk files, metadata files and directories live in three
association lists; a chunk file records whether it was ever fsynced, a
directory records its creation mode, a metadata file records its body and
its modification time (`none` until `Chtimes` has been applied). -/

def alookup {α : Type} : List (List (List Char) × α) → List (List Char) → Option α
  | [], _ => none
  | (k, v) :: rest, key => if k = key then some v else alookup rest key

def aset {α : Type} (m : List (List (List Char) × α)) (k : List (List Char)) (v : α) :
    List (List (List Char) × α) := (k, v) :: m

def aerase {α : Type} (m : List (List (List Char) × α)) (k : List (List Char)) :
    List (List (List Char) × α) := m.filter (fun p => decide (p.1 ≠ k))

theorem alookup_aset {α : Type} (m : List (List (List Char) × α)) (k k' : List (List Char))
    (v : α) : alookup (aset m k v) k' = if k = k' then some v else alookup m k' := rfl

structure ChunkFile where
  content : List Byte
  fsynced : Bool
deriving DecidableEq

structure MetaFile where
  body : List Char
  mtime : Option Int
deriving DecidableEq

structure FS where
  dirs : List (List (List Char) × Nat)
  chunks : List (List (List Char) × ChunkFile)
  metas : List (List (List Char) × MetaFile)
deriving DecidableEq

def emptyFS : FS := ⟨[], [], []⟩

/-- The components of a slash-joined path after `path.Join`/`path.Clean`
(empty components dropped). -/
def pathComponents (s : List Char) : List (List Char) :=
  (splitChar '/' s).filter (fun c => decide (c ≠ []))

/-- Model of `path.Base`: `"."` for the empty path, `"/"` for an all-slash path,
otherwise the part after the last slash, trailing slashes removed. -/
def pathBase (s : List Char) : List Char :=
  if s = [] then ['.']
  else
    let t := (s.reverse.dropWhile (fun c => c = '/')).reverse
    if t = [] then ['/']
    else (t.reverse.takeWhile (fun c => decide (c ≠ '/'))).reverse

/-- Components of the chunk path `<root>/<h[:2]>/<h[2:]>` for digest hex `h`
(src/dedupstore.go:43). -/
def chunkKey (h : List Char) : List (List Char) :=
  pathComponents (h.take 2 ++ '/' :: h.drop 2)

/-- Components of `path.Dir` of the chunk path, i.e. `<root>/<h[:2]>`. -/
def chunkDirKey (h : List Char) : List (List Char) := pathComponents (h.take 2)

/-- The chunk file content stored for digest hex `h`, if any
(`ioutil.ReadFile`; its size doubles as the `os.Stat` size). -/
def chunkContentAt (fs : FS) (h : List Char) : Option (List Byte) :=
  (alookup fs.chunks (chunkKey h)).map ChunkFile.content

/-- All non-empty prefixes of a component path, shortest first. -/
def prefixesOf (p : List (List Char)) : List (List (List Char)) :=
  (List.range p.length).map (fun i => p.take (i + 1))

/-- Model of `os.MkdirAll`: create every missing directory along the path with the
given mode; existing directories keep their mode. -/
def mkdirAll (fs : FS) (p : List (List Char)) (mode : Nat) : FS :=
  { fs with
    dirs := (prefixesOf p).foldl
      (fun d k => if (alookup d k).isSome then d else aset d k mode) fs.dirs }

/-! ## `chunkedReader` (src/unnamed/part_001:211–284, part_002:165–233)

`newChunkedReader` stats every chunk and builds the prefix-sum offsets
array: `offsets[i]` is the sum of the first `i` chunk sizes and
`offsets[n]` the total size. -/

structure ChunkedReader where
  off : Int
  chunks : List (List Char)
  chunkOffsets : List Int
deriving DecidableEq

def chunkOffsetsOf (sizes : List Nat) : List Int :=
  (List.range (sizes.length + 1)).map (fun i => ((sizes.take i).sum : Int))

/-- The `os.Stat` pass of `newChunkedReader`: sizes of all chunks, `none`
if any chunk file is missing. -/
def statSizes (fs : FS) : List (List Char) → Option (List Nat)
  | [] => some []
  | h :: rest =>
      match chunkContentAt fs h, statSizes fs rest with
      | some c, some sizes => some (c.length :: sizes)
      | _, _ => none

def newChunkedReader (fs : FS) (chunks : List (List Char)) : Option ChunkedReader :=
  (statSizes fs chunks).map (fun sizes => ⟨0, chunks, chunkOffsetsOf sizes⟩)

/-- Outcome of one `Read` call.  `ok data` is `(len(data), nil)`;
`invalidOffset` is `(0, "Invalid offset")` — note the accumulated count is
discarded; `readFileErr data` is `(len(data), err)` from `ioutil.ReadFile`;
`outOfRange` is a Go runtime panic (slice index out of range); `stuck` is
the loop iterating without progress (it never returns), and doubles as the
unreachable fuel-exhaustion branch. -/
inductive ReadResult where
  | ok (data : List Byte)
  | invalidOffset
  | readFileErr (data : List Byte)
  | outOfRange
  | stuck
deriving DecidableEq

/-- The body of `chunkedReader.Read`, parameterized by the end-of-stream
guard value: part_001 compares the found index against
`len(cr.chunkOffsets)-1`, part_002 against `len(cr.chunkOffsets)`.
One loop iteration per fuel unit; fuel `plen` suffices because every
continuing iteration copies at least one byte. -/
def readLoop (fs : FS) (chunks : List (List Char)) (offsets : List Int) (guard : Int) :
    Nat → Int → Nat → List Byte → ReadResult
  | fuel, off, plen, acc =>
    if plen = 0 then .ok acc
    else
      match fuel with
      | 0 => .stuck
      | fuel + 1 =>
          let j := sortSearch offsets.length (fun i => decide (offsets.getD i 0 > off))
          let chunkIndex : Int := (j : Int) - 1
          if chunkIndex = guard then .invalidOffset
          else if chunkIndex < 0 then .outOfRange
          else
            let idx := chunkIndex.toNat
            if chunks.length ≤ idx then .outOfRange
            else
              match chunkContentAt fs (chunks.getD idx []) with
              | none => .readFileErr acc
              | some content =>
                  let oic := off - offsets.getD idx 0
                  if oic < 0 ∨ (content.length : Int) < oic then .outOfRange
                  else
                    let nn := min plen (content.length - oic.toNat)
                    if nn = 0 then .stuck
                    else
                      readLoop fs chunks offsets guard fuel (off + nn) (plen - nn)
                        (acc ++ (content.drop oic.toNat).take nn)

/-- One call `cr.Read(p)` with `len(p) = plen`, part_001 variant
(guard `len(cr.chunkOffsets)-1`).  The receiver is a value, so the caller's
reader is unchanged afterwards; the call's result is all that escapes. -/
def chunkedRead (fs : FS) (cr : ChunkedReader) (plen : Nat) : ReadResult :=
  readLoop fs cr.chunks cr.chunkOffsets ((cr.chunkOffsets.length : Int) - 1)
    plen cr.off plen []

/-- One call `cr.Read(p)`, part_002 variant (guard `len(cr.chunkOffsets)`). -/
def chunkedReadV2 (fs : FS) (cr : ChunkedReader) (plen : Nat) : ReadResult :=
  readLoop fs cr.chunks cr.chunkOffsets (cr.chunkOffsets.length : Int)
    plen cr.off plen []

inductive Whence where
  | start
  | current
  | fromEnd
deriving DecidableEq

/-- The body of `chunkedReader.Seek`: the new offset it computes and
returns.  (`io.SeekEnd` interprets the argument as an offset back from the
end: `totalSize - offset`.) -/
def seekBody (cr : ChunkedReader) (offset : Int) (whence : Whence) : Int :=
  match whence with
  | .start => offset
  | .current => cr.off + offset
  | .fromEnd => cr.chunkOffsets.getD (cr.chunkOffsets.length - 1) 0 - offset

/-- Composition `cr.Seek(offset, whence)` followed by `cr.Read(p)` as a caller performs
them: `Seek` runs on a copy of the reader (value receiver), so the offset
it computes and returns never reaches the caller's `cr`, and the `Read`
starts from the old `cr.off`. -/
def seekThenRead (fs : FS) (cr : ChunkedReader) (offset : Int) (whence : Whence)
    (plen : Nat) : ReadResult :=
  let _returned := seekBody cr offset whence
  chunkedRead fs cr plen

/-! ## `dedupStore.Post` / `Get` / `Delete` (src/dedupstore.go, src/unnamed/part_001)

`Post` drains the chunk channel, storing each chunk that is not already on
disk, then writes the metadata file and applies the modification time.
The I/O oracle selects which fallible operation fails; `oracleOK` makes
them all succeed. -/

/-- The serialized metadata body: chunk hashes joined by `"\n"`
(`strings.Join(chunkList, "\n")`, part_001:107). -/
def metadataBodyOf (chunkList : List (List Char)) : List Char := joinChar '\n' chunkList

/-- Parsing a metadata body back: `strings.Split(string(chunkList), "\n")`
(part_001:203). -/
def parseChunkList (body : List Char) : List (List Char) := splitChar '\n' body

inductive PostErr where
  | chunkRead
  | chunkMkdir
  | chunkWrite
  | alreadyExists
  | createFail
  | writeFail
  | syncFail
  | closeFail
  | chtimesFail
deriving DecidableEq

structure Oracle where
  chunkMkdirFails : Nat → Bool
  chunkWriteFails : Nat → Bool
  createFails : Bool
  writeFails : Bool
  syncFails : Bool
  closeFails : Bool
  chtimesFails : Bool

def oracleOK : Oracle := ⟨fun _ => false, fun _ => false, false, false, false, false, false⟩

/-- Model of `ioutil.WriteFile(chunkpath, content, 0600)`: plain write and close,
no fsync of the chunk file. -/
def writeChunkFile (fs : FS) (h : List Char) (content : List Byte) : FS :=
  { fs with chunks := aset fs.chunks (chunkKey h) ⟨content, false⟩ }

/-- The chunk-store put step of `Post` (src/dedupstore.go:43–52): stat the
chunk path and skip the chunk if the path exists; otherwise create the
fan-out directory with mode 0700 and write the bytes.  `idx` is the
position of the chunk in the upload, used by the oracle.  A failing
`MkdirAll` leaves the directories unchanged; a failing `WriteFile` happens
after the directories were made. -/
def storeChunkStep (o : Oracle) (idx : Nat) (fs : FS) (h : List Char)
    (content : List Byte) : Option PostErr × FS :=
  match alookup fs.chunks (chunkKey h) with
  | some _ => (none, fs)
  | none =>
      if o.chunkMkdirFails idx then (some .chunkMkdir, fs)
      else
        let fs := mkdirAll fs (chunkDirKey h) 0o700
        if o.chunkWriteFails idx then (some .chunkWrite, fs)
        else (none, writeChunkFile fs h content)

/-- The chunk-consuming loop of `Post`: hashes are accumulated in emission
order; the loop stops at the first store error. -/
def storeChunksLoop (o : Oracle) :
    Nat → FS → List GoChunk → Option PostErr × FS × List (List Char)
  | _, fs, [] => (none, fs, [])
  | idx, fs, ch :: rest =>
      match storeChunkStep o idx fs ch.hash ch.content with
      | (some e, fs) => (some e, fs, [])
      | (none, fs) =>
          let (e, fs, hashes) := storeChunksLoop o (idx + 1) fs rest
          (e, fs, ch.hash :: hashes)

/-- Components of the metadata path
`<root>/<rid[:2]>/<rid[2:]>/<path.Base(name)>` chosen by `randomPath`
(part_001:50–56), for the RID hex string `rid` drawn from the CSPRNG. -/
def metaKey (rid name : List Char) : List (List Char) :=
  pathComponents (rid.take 2 ++ '/' :: (rid.drop 2 ++ '/' :: pathBase name))

/-- Components of `path.Join(ds.root, name[:2], name[2:])`, the path both
`Get` and `Delete` derive from a PID (part_001:193,295). -/
def getPathKey (name : List Char) : List (List Char) :=
  pathComponents (name.take 2 ++ '/' :: name.drop 2)

/-- The metadata-writing phase of `Post` (part_001:97–137): stat the random
path (refusing an existing file), `MkdirAll` (error ignored), `Create`,
`WriteString` of the newline-joined hashes, `Sync`, `Close`, then return
the PID and the result of `Chtimes`. -/
def metaPhase (o : Oracle) (rid name : List Char) (chunkList : List (List Char))
    (modTime : Int) (fs : FS) : Except PostErr (List Char) × FS :=
  let key := metaKey rid name
  match alookup fs.metas key with
  | some _ => (.error .alreadyExists, fs)
  | none =>
      let fs := mkdirAll fs key.dropLast 0o700
      if o.createFails then (.error .createFail, fs)
      else
        let fs := { fs with metas := aset fs.metas key ⟨[], none⟩ }
        if o.writeFails then (.error .writeFail, fs)
        else
          let body := metadataBodyOf chunkList
          let fs := { fs with metas := aset fs.metas key ⟨body, none⟩ }
          if o.syncFails then (.error .syncFail, fs)
          else if o.closeFails then (.error .closeFail, fs)
          else
            let newpath := (rid.take 2 ++ rid.drop 2) ++ '/' :: pathBase name
            if o.chtimesFails then (.error .chtimesFail, fs)
            else (.ok newpath, { fs with metas := aset fs.metas key ⟨body, some modTime⟩ })

/-- Model of `dedupStore.Post` (part_001:58–138).  `rid` is the fresh random hex
string; `readFail` says whether the input reader ends in an error instead
of EOF. -/
def dedupPost (o : Oracle) (rid : List Char) (fs : FS) (name : List Char)
    (input : List Byte) (readFail : Bool) (modTime : Int) :
    Except PostErr (List Char) × FS :=
  match storeChunksLoop o 0 fs (doRoll input readFail).1 with
  | (some e, fs, _) => (.error e, fs)
  | (none, fs, chunkList) =>
      if (doRoll input readFail).2 then (.error .chunkRead, fs)
      else metaPhase o rid name chunkList modTime fs

inductive GetErr where
  | invalidName
  | notFound
  | chunkMissing
deriving DecidableEq

/-- Model of `dedupStore.Get` (part_001:189–206): reject names shorter than two
characters, read and parse the metadata file, construct the reader. -/
def dedupGet (fs : FS) (name : List Char) : Except GetErr (ChunkedReader × Option Int) :=
  if name.length < 2 then .error .invalidName
  else
    match alookup fs.metas (getPathKey name) with
    | none => .error .notFound
    | some mf =>
        match newChunkedReader fs (parseChunkList mf.body) with
        | none => .error .chunkMissing
        | some cr => .ok (cr, mf.mtime)

inductive DeleteResult where
  | ok (fs : FS)
  | errRemove
  | panicked
deriving DecidableEq

/-- Model of `dedupStore.Delete` (part_001:294–320).  There is no length guard, so
for a name shorter than two characters the slice expression `name[:2]`
panics at run time.  Removal of the metadata file is modelled; the pruning
of the then-empty RID directories touches no file and is not modelled. -/
def dedupDelete (fs : FS) (name : List Char) : DeleteResult :=
  if name.length < 2 then .panicked
  else
    let key := getPathKey name
    match alookup fs.metas key with
    | none => .errRemove
    | some _ => .ok { fs with metas := aerase fs.metas key }

deriving instance DecidableEq for Except

/-! ## Path and key lemmas -/

theorem pathComponents_sepFree (s : List Char) (hne : s ≠ []) (hs : '/' ∉ s) :
    pathComponents s = [s] := by
  unfold pathComponents
  rw [splitChar_sepFree '/' s hs]
  simp [hne]

theorem pathComponents_cons (x y : List Char) (hx : '/' ∉ x) :
    pathComponents (x ++ '/' :: y) =
      (if x = [] then [] else [x]) ++ pathComponents y := by
  unfold pathComponents
  rw [splitChar_append '/' x y hx]
  by_cases hxe : x = []
  · simp [hxe]
  · simp [hxe]

theorem take_two_no_slash (s : List Char) (hs : '/' ∉ s) : '/' ∉ s.take 2 :=
  fun h => hs (List.take_subset 2 s h)

theorem drop_two_no_slash (s : List Char) (hs : '/' ∉ s) : '/' ∉ s.drop 2 :=
  fun h => hs (List.drop_subset 2 s h)

theorem chunkKey_eq (h : List Char) (hlen : 3 ≤ h.length) (hs : '/' ∉ h) :
    chunkKey h = [h.take 2, h.drop 2] := by
  unfold chunkKey
  rw [pathComponents_cons _ _ (take_two_no_slash h hs),
    pathComponents_sepFree _ (by
      intro hd
      have hlen2 : (h.drop 2).length = 0 := by rw [hd]; rfl
      rw [List.length_drop] at hlen2
      omega) (drop_two_no_slash h hs)]
  have : h.take 2 ≠ [] := by
    intro ht
    have hlen2 : (h.take 2).length = 0 := by rw [ht]; rfl
    rw [List.length_take] at hlen2
    omega
  simp [this]

theorem chunkKey_inj (h h2 : List Char) (hl : 3 ≤ h.length) (hl2 : 3 ≤ h2.length)
    (hs : '/' ∉ h) (hs2 : '/' ∉ h2) (heq : chunkKey h = chunkKey h2) : h = h2 := by
  rw [chunkKey_eq h hl hs, chunkKey_eq h2 hl2 hs2] at heq
  have h1 := (List.cons.injEq _ _ _ _).mp heq
  have h2' := (List.cons.injEq _ _ _ _).mp (h1.2 ▸ rfl : [h.drop 2] = [h2.drop 2])
  calc h = h.take 2 ++ h.drop 2 := (List.take_append_drop 2 h).symm
    _ = h2.take 2 ++ h2.drop 2 := by rw [h1.1, h2'.1]
    _ = h2 := List.take_append_drop 2 h2

theorem takeWhile_ne_nil_of_head {α : Type} (p : α → Bool) (l : List α) (hl : l ≠ [])
    (hp : p (l.head hl) = true) : l.takeWhile p ≠ [] := by
  cases l with
  | nil => exact absurd rfl hl
  | cons c rest =>
    simp only [List.head_cons] at hp
    simp [List.takeWhile_cons, hp]

theorem pathBase_ne_nil (s : List Char) : pathBase s ≠ [] := by
  unfold pathBase
  by_cases h1 : s = []
  · simp [h1]
  · simp only [h1, if_neg, not_false_iff]
    by_cases h2 : (s.reverse.dropWhile (fun c => c = '/')).reverse = []
    · simp [h2]
    · simp only [h2, if_neg, not_false_iff]
      rw [List.reverse_reverse]
      have hune : s.reverse.dropWhile (fun c => c = '/') ≠ [] :=
        fun h => h2 (by rw [h]; rfl)
      have hhead := List.head_dropWhile_not (fun c => c = '/') s.reverse hune
      have htk := takeWhile_ne_nil_of_head (fun c => decide (c ≠ '/'))
        (s.reverse.dropWhile (fun c => c = '/')) hune (by simp_all)
      simpa using htk

theorem pathBase_no_slash (s : List Char) (hroot : pathBase s ≠ ['/']) :
    '/' ∉ pathBase s := by
  unfold pathBase at hroot ⊢
  by_cases h1 : s = []
  · simp [h1]
  · simp only [h1, if_neg, not_false_iff] at hroot ⊢
    by_cases h2 : (s.reverse.dropWhile (fun c => c = '/')).reverse = []
    · simp [h2] at hroot
    · simp only [h2, if_neg, not_false_iff] at hroot ⊢
      intro hmem
      rw [List.mem_reverse] at hmem
      have := List.mem_takeWhile_imp hmem
      simp at this

/-! ## Offsets and flatten lemmas -/

theorem sum_take_mono (l : List Nat) {i j : Nat} (hij : i ≤ j) :
    (l.take i).sum ≤ (l.take j).sum := by
  have : l.take j = l.take i ++ (l.drop i).take (j - i) := by
    rw [← List.take_add]
    congr 1
    omega
  rw [this, List.sum_append]
  omega

theorem sum_take_le (l : List Nat) (i : Nat) : (l.take i).sum ≤ l.sum := by
  conv_rhs => rw [← List.take_append_drop i l]
  rw [List.sum_append]
  omega

theorem chunkOffsetsOf_length (sizes : List Nat) :
    (chunkOffsetsOf sizes).length = sizes.length + 1 := by
  simp [chunkOffsetsOf]

theorem chunkOffsetsOf_getD (sizes : List Nat) (i : Nat) (h : i < sizes.length + 1) :
    (chunkOffsetsOf sizes).getD i 0 = ((sizes.take i).sum : Int) := by
  unfold chunkOffsetsOf
  rw [List.getD_eq_getElem _ _ (by simpa using h), List.getElem_map, List.getElem_range]

theorem flatten_drop_sumTake {α : Type} :
    ∀ (cs : List (List α)) (i : Nat),
      cs.flatten.drop (((cs.map List.length).take i).sum) = (cs.drop i).flatten := by
  intro cs
  induction cs with
  | nil => intro i; simp
  | cons c rest ih =>
    intro i
    cases i with
    | zero => simp
    | succ i =>
      simp only [List.map_cons, List.take_succ_cons, List.sum_cons, List.flatten_cons,
        List.drop_succ_cons]
      rw [← List.drop_drop, List.drop_append_of_le_length le_rfl]
      simp [ih i]

/-- Sizes collected by `newChunkedReader` when every chunk of `l` is stored
with its own content. -/
theorem statSizes_of_stored (fs : FS) :
    ∀ (l : List GoChunk),
      (∀ ch ∈ l, chunkContentAt fs ch.hash = some ch.content) →
      statSizes fs (l.map GoChunk.hash) = some (l.map (fun ch => ch.content.length)) := by
  intro l
  induction l with
  | nil => intro _; rfl
  | cons ch rest ih =>
    intro hst
    simp only [List.map_cons, statSizes]
    rw [hst ch (by simp), ih (fun ch2 h2 => hst ch2 (List.mem_cons_of_mem ch h2))]

/-! ## Read correctness over stored chunks -/

theorem readLoop_ok (fs : FS) (hashes : List (List Char)) (contents : List (List Byte))
    (hlen : hashes.length = contents.length)
    (hstored : ∀ i, i < contents.length →
      chunkContentAt fs (hashes.getD i []) = some (contents.getD i [])) :
    ∀ fuel plen (off : Int) acc, plen ≤ fuel → 0 ≤ off →
      off.toNat + plen ≤ contents.flatten.length →
      readLoop fs hashes (chunkOffsetsOf (contents.map List.length))
          (((chunkOffsetsOf (contents.map List.length)).length : Int) - 1) fuel off plen acc
        = .ok (acc ++ (contents.flatten.drop off.toNat).take plen) := by
  intro fuel
  induction fuel with
  | zero =>
    intro plen off acc hfuel hoff hbound
    have hz : plen = 0 := by omega
    subst hz
    simp [readLoop]
  | succ fuel ih =>
    intro plen off acc hfuel hoff hbound
    by_cases hp : plen = 0
    · subst hp; simp [readLoop]
    · have hn1 : (chunkOffsetsOf (contents.map List.length)).length
          = contents.length + 1 := by
        rw [chunkOffsetsOf_length, List.length_map]
      set sizes := contents.map List.length with hsizes
      set n := contents.length with hnn
      have hsl : sizes.length = n := List.length_map _ _
      have htotal : contents.flatten.length = sizes.sum := List.length_flatten contents
      have hofftot : off < (sizes.sum : Int) := by
        rw [← htotal]; omega
      set f := fun i => decide ((chunkOffsetsOf sizes).getD i 0 > off) with hf
      have hmono : ∀ a b, a ≤ b → b < (chunkOffsetsOf sizes).length →
          f a = true → f b = true := by
        intro a b hab hb hfa
        rw [hn1] at hb
        simp only [hf, decide_eq_true_eq] at hfa ⊢
        rw [chunkOffsetsOf_getD sizes a (by omega)] at hfa
        rw [chunkOffsetsOf_getD sizes b (by omega)]
        have := sum_take_mono sizes hab
        omega
      set j := sortSearch (chunkOffsetsOf sizes).length f with hjdef
      obtain ⟨hjlow, hjhigh⟩ := sortSearch_spec _ f hmono
      have hjle : j ≤ (chunkOffsetsOf sizes).length := sortSearch_le _ f
      have hjn : j < (chunkOffsetsOf sizes).length := by
        by_contra hcon
        have hje : j = (chunkOffsetsOf sizes).length := by omega
        have hfn : f n = true := by
          simp only [hf, decide_eq_true_eq]
          rw [chunkOffsetsOf_getD sizes n (by omega)]
          rw [← hsl, List.take_length]
          omega
        have := hjlow n (by omega)
        rw [hfn] at this
        cases this
      have hj1 : 1 ≤ j := by
        by_contra hcon
        have hje : j = 0 := by omega
        have := hjhigh (by omega)
        simp only [hf, decide_eq_true_eq] at this
        rw [chunkOffsetsOf_getD sizes j (by omega), hje] at this
        simp at this
        omega
      have hidxn : j - 1 < n := by rw [hn1] at hjn; omega
      -- facts about the landing chunk
      have hlo : ((sizes.take (j - 1)).sum : Int) ≤ off := by
        have := hjlow (j - 1) (by omega)
        simp only [hf, decide_eq_false_iff_not] at this
        rw [chunkOffsetsOf_getD sizes (j - 1) (by omega)] at this
        omega
      have hhi : off < ((sizes.take j).sum : Int) := by
        have := hjhigh hjn
        simp only [hf, decide_eq_true_eq] at this
        rw [chunkOffsetsOf_getD sizes j (by omega)] at this
        omega
      set cdata := contents.getD (j - 1) [] with hcdata
      have hsize : sizes.getD (j - 1) 0 = cdata.length := by
        rw [List.getD_eq_getElem sizes 0 (by omega : j - 1 < sizes.length),
          hcdata, List.getD_eq_getElem contents [] (by omega : j - 1 < contents.length)]
        simp [hsizes, List.getElem_map]
      have hsucc : (sizes.take j).sum = (sizes.take (j - 1)).sum + cdata.length := by
        have h1 := List.sum_take_succ sizes (j - 1) (by omega)
        rw [← List.getD_eq_getElem sizes 0 (by omega), hsize] at h1
        have hj' : j - 1 + 1 = j := by omega
        rw [hj'] at h1
        exact h1
      -- unfold one loop iteration
      rw [readLoop]
      simp only [hp, if_false, ← hjdef]
      have hguard : ¬ ((j : Int) - 1 = ((chunkOffsetsOf sizes).length : Int) - 1) := by
        omega
      rw [if_neg hguard]
      have hneg : ¬ ((j : Int) - 1 < 0) := by omega
      rw [if_neg hneg]
      have hidx : ((j : Int) - 1).toNat = j - 1 := by omega
      have hbnd : ¬ (hashes.length ≤ ((j : Int) - 1).toNat) := by
        rw [hidx, hlen]; omega
      rw [if_neg hbnd, hidx]
      rw [hstored (j - 1) (by omega)]
      dsimp only
      have hoic0 : ¬ (off - (chunkOffsetsOf sizes).getD (j - 1) 0 < 0 ∨
          ((contents.getD (j - 1) []).length : Int) <
            off - (chunkOffsetsOf sizes).getD (j - 1) 0) := by
        rw [chunkOffsetsOf_getD sizes (j - 1) (by omega)]
        push_neg
        constructor
        · omega
        · rw [← hcdata]; omega
      rw [if_neg hoic0]
      set oic := off - (chunkOffsetsOf sizes).getD (j - 1) 0 with hoicdef
      have hoicval : oic = off - ((sizes.take (j - 1)).sum : Int) := by
        rw [hoicdef, chunkOffsetsOf_getD sizes (j - 1) (by omega)]
      have hoiclt : oic.toNat < cdata.length := by
        rw [hoicval]; omega
      set nn := min plen ((contents.getD (j - 1) []).length - oic.toNat) with hnndef
      have hnncd : nn = min plen (cdata.length - oic.toNat) := by rw [hnndef, hcdata]
      have hnn1 : 1 ≤ nn := by
        rw [hnncd]
        have : 1 ≤ cdata.length - oic.toNat := by omega
        omega
      have hnnle : nn ≤ plen := by rw [hnncd]; omega
      have hnnsz : nn ≤ cdata.length - oic.toNat := by rw [hnncd]; omega
      have hnne : ¬ (nn = 0) := by omega
      rw [if_neg hnne]
      -- the recursive call
      have hrec := ih (plen - nn) (off + nn) (acc ++ (cdata.drop oic.toNat).take nn)
        (by omega) (by omega) (by omega)
      rw [← hcdata, hrec]
      -- split the target slice at nn
      have hoffsplit : off.toNat = (sizes.take (j - 1)).sum + oic.toNat := by
        rw [hoicval]; omega
      have hcopied : (contents.flatten.drop off.toNat).take nn
          = (cdata.drop oic.toNat).take nn := by
        rw [hoffsplit, ← List.drop_drop, flatten_drop_sumTake contents (j - 1),
          List.drop_eq_getElem_cons (by omega : j - 1 < contents.length),
          ← List.getD_eq_getElem contents [] (by omega), ← hcdata]
        rw [List.flatten_cons, List.drop_append_of_le_length (by omega),
          List.take_append_of_le_length (by simp [List.length_drop]; omega)]
      have hdropnn : (contents.flatten.drop off.toNat).drop nn
          = contents.flatten.drop (off + (nn : Int)).toNat := by
        rw [List.drop_drop]
        congr 1
        omega
      have htake : (contents.flatten.drop off.toNat).take plen
          = (cdata.drop oic.toNat).take nn ++
              (contents.flatten.drop (off + (nn : Int)).toNat).take (plen - nn) := by
        have hplen : plen = nn + (plen - nn) := by omega
        rw [hplen, List.take_add, ← hplen, hcopied, hdropnn]
      rw [htake, List.append_assoc]

/-! ## Reader construction lemmas and end-of-stream behavior -/

theorem newChunkedReader_eq (fs : FS) (hashes : List (List Char)) (cr : ChunkedReader)
    (h : newChunkedReader fs hashes = some cr) :
    ∃ sizes, statSizes fs hashes = some sizes
      ∧ cr = ⟨0, hashes, chunkOffsetsOf sizes⟩ := by
  unfold newChunkedReader at h
  cases hs : statSizes fs hashes with
  | none => rw [hs] at h; simp at h
  | some sizes =>
    rw [hs] at h
    simp only [Option.map_some', Option.some.injEq] at h
    exact ⟨sizes, rfl, h.symm⟩

theorem statSizes_length (fs : FS) :
    ∀ hashes sizes, statSizes fs hashes = some sizes → sizes.length = hashes.length := by
  intro hashes
  induction hashes with
  | nil => intro sizes h; simp only [statSizes, Option.some.injEq] at h; simp [← h]
  | cons hh rest ih =>
    intro sizes h
    simp only [statSizes] at h
    cases hc : chunkContentAt fs hh with
    | none => rw [hc] at h; cases h
    | some c =>
      rw [hc] at h
      cases hr : statSizes fs rest with
      | none => rw [hr] at h; cases h
      | some rsizes =>
        rw [hr] at h
        simp only [Option.some.injEq] at h
        subst h
        simp [ih rsizes hr]

theorem sortSearch_offsets_atEnd (sizes : List Nat) (o : Int)
    (ho : (sizes.sum : Int) ≤ o) :
    sortSearch (chunkOffsetsOf sizes).length
      (fun i => decide ((chunkOffsetsOf sizes).getD i 0 > o)) = sizes.length + 1 := by
  rw [← chunkOffsetsOf_length sizes]
  apply sortSearch_all_false
  intro k hk
  rw [chunkOffsetsOf_length] at hk
  simp only [decide_eq_false_iff_not, not_lt]
  rw [chunkOffsetsOf_getD sizes k hk]
  have := sum_take_le sizes k
  omega

/-- C3 (amended): on a reader built by `newChunkedReader` whose current
offset is at or past the end of the stream, a `Read` with a non-empty
buffer returns zero bytes together with the "Invalid offset" error — not a
clean end-of-stream with the bytes accumulated so far. -/
theorem c3_read_at_end_invalid_offset (fs : FS) (hashes : List (List Char))
    (cr : ChunkedReader) (o : Int) (plen : Nat)
    (hcr : newChunkedReader fs hashes = some cr)
    (hoff : cr.chunkOffsets.getD (cr.chunkOffsets.length - 1) 0 ≤ o)
    (hp : 0 < plen) :
    chunkedRead fs { cr with off := o } plen = .invalidOffset := by
  obtain ⟨sizes, _, rfl⟩ := newChunkedReader_eq fs hashes cr hcr
  simp only [chunkOffsetsOf_length, Nat.add_sub_cancel] at hoff
  rw [chunkOffsetsOf_getD sizes sizes.length (by omega), List.take_length] at hoff
  unfold chunkedRead
  obtain ⟨p, rfl⟩ : ∃ p, plen = p + 1 := ⟨plen - 1, by omega⟩
  rw [readLoop]
  simp only [Nat.succ_ne_zero, if_false]
  dsimp only
  rw [sortSearch_offsets_atEnd sizes o hoff]
  rw [if_pos (by rw [chunkOffsetsOf_length])]

/-- Witness scenario for reading at end-of-stream: a stored zero-length
chunk (the representation of an empty upload). -/
def fsOneEmptyChunk : FS :=
  { emptyFS with chunks := aset emptyFS.chunks (chunkKey "abcd".toList) ⟨[], false⟩ }

def crOneEmptyChunk : ChunkedReader := ⟨0, ["abcd".toList], [0, 0]⟩

theorem c3_read_at_end_invalid_offset_check :
    chunkedRead fsOneEmptyChunk { crOneEmptyChunk with off := 0 } 1 = .invalidOffset :=
  c3_read_at_end_invalid_offset fsOneEmptyChunk ["abcd".toList] crOneEmptyChunk 0 1
    (by decide) (by decide) (by decide)

/-- C3 counterexample: the claim says a `Read` whose chunk search lands on
the final offset index returns the bytes accumulated so far in that call
without an error; but on a single 2-byte chunk, a `Read` with a 3-byte
buffer copies both bytes, hits end-of-stream on the next iteration, and
returns `(0, "Invalid offset")`, discarding the copied bytes and raising an
error. -/
theorem c3_read_discards_partial :
    (let fsC : FS :=
      { emptyFS with chunks := aset emptyFS.chunks (chunkKey "abcd".toList) ⟨[7, 9], false⟩ }
     chunkedRead fsC ⟨0, ["abcd".toList], [0, 2]⟩ 3 = .invalidOffset) ∧
      ReadResult.invalidOffset ≠ .ok [7, 9] := by
  constructor
  · decide
  · decide

/-- C2: evaluating the reference reader at the failing input.  With a
single stored chunk `[7, 9]`, `Seek(1, io.SeekStart)` computes and returns
the new offset 1, but it mutates only the method's copy of the reader
(value receiver), so the following `Read` of one byte starts at the old
offset 0 and returns byte `B[0] = 7` instead of `B[1] = 9`: the position
set by `Seek` is not observed by the subsequent `Read`. -/
theorem c2_seek_position_lost :
    (let fsC : FS :=
      { emptyFS with chunks := aset emptyFS.chunks (chunkKey "abcd".toList) ⟨[7, 9], false⟩ }
     let cr : ChunkedReader := ⟨0, ["abcd".toList], [0, 2]⟩
     newChunkedReader fsC ["abcd".toList] = some cr ∧
       seekBody cr 1 .start = 1 ∧
       seekThenRead fsC cr 1 .start 1 = .ok [7]) ∧
      ReadResult.ok [7] ≠ .ok [9] := by
  constructor
  · refine ⟨by decide, by decide, by decide⟩
  · decide

/-- C10: in the part_002 variant of `Read`, the end-of-stream guard
compares the found chunk index against `len(chunkOffsets)` instead of
`len(chunkOffsets)-1`; the first conjunct shows the comparison can never be
true (the search result is at most `len`, so after the decrement the index
is at most `len - 1`), and the second shows the consequence: on a reader
built by `newChunkedReader` whose offset is at or past the total size, a
`Read` with a non-empty buffer indexes `chunks[n]` on a slice of length `n`
— a runtime panic — instead of taking the error branch. -/
theorem c10_v2_guard_unreachable_read_panics (offs : List Int) (off : Int)
    (fs : FS) (hashes : List (List Char)) (cr : ChunkedReader) (o : Int) (plen : Nat)
    (hcr : newChunkedReader fs hashes = some cr)
    (hoff : cr.chunkOffsets.getD (cr.chunkOffsets.length - 1) 0 ≤ o)
    (hp : 0 < plen) :
    ((sortSearch offs.length (fun i => decide (offs.getD i 0 > off)) : Int) - 1
        ≠ (offs.length : Int)) ∧
      chunkedReadV2 fs { cr with off := o } plen = .outOfRange := by
  constructor
  · have := sortSearch_le offs.length (fun i => decide (offs.getD i 0 > off))
    omega
  · obtain ⟨sizes, hsz, rfl⟩ := newChunkedReader_eq fs hashes cr hcr
    have hlen := statSizes_length fs hashes sizes hsz
    simp only [chunkOffsetsOf_length, Nat.add_sub_cancel] at hoff
    rw [chunkOffsetsOf_getD sizes sizes.length (by omega), List.take_length] at hoff
    unfold chunkedReadV2
    obtain ⟨p, rfl⟩ : ∃ p, plen = p + 1 := ⟨plen - 1, by omega⟩
    rw [readLoop]
    simp only [Nat.succ_ne_zero, if_false]
    dsimp only
    rw [sortSearch_offsets_atEnd sizes o hoff]
    rw [if_neg (by
      rw [chunkOffsetsOf_length]
      push_cast
      omega)]
    rw [if_neg (by push_cast; omega)]
    rw [if_pos (by omega)]

theorem c10_v2_guard_unreachable_read_panics_check :
    ((sortSearch ([0, 0] : List Int).length
        (fun i => decide (([0, 0] : List Int).getD i 0 > (0 : Int))) : Int) - 1
      ≠ (([0, 0] : List Int).length : Int)) ∧
      chunkedReadV2 fsOneEmptyChunk { crOneEmptyChunk with off := 0 } 1 = .outOfRange :=
  c10_v2_guard_unreachable_read_panics [0, 0] 0 fsOneEmptyChunk ["abcd".toList]
    crOneEmptyChunk 0 1 (by decide) (by decide) (by decide)

/-! ## Chunker claims -/

theorem doRoll_flatten (input : List Byte) :
    ((doRoll input false).1.map GoChunk.content).flatten = input := by
  unfold doRoll
  cases heq : rollSplit NewRollSum [] input with
  | mk cs leftover =>
    have hjoin := rollSplit_join input NewRollSum []
    rw [heq] at hjoin
    simp only [List.nil_append] at hjoin
    simp only [Bool.false_eq_true, if_false, List.map_map]
    have hcomp : (GoChunk.content ∘ chunkit) = id := by
      funext c
      rfl
    rw [hcomp, List.map_id, List.flatten_append]
    simpa using hjoin

/-- C4: for every finite input byte stream, the chunker emits a finite
sequence of chunks in input order whose concatenation, in emission order,
equals the input byte stream exactly. -/
theorem c4_doRoll_concat (input : List Byte) :
    ((doRoll input false).1.map GoChunk.content).flatten = input :=
  doRoll_flatten input

/-- C9 counterexample: the chunker emits a zero-length chunk for the empty
input (the final EOF chunk is the empty in-flight buffer), so not every
emitted and persisted chunk is a non-empty byte sequence. -/
theorem c9_empty_input_empty_chunk :
    (doRoll [] false).1.map GoChunk.content = [[]] ∧
      ∃ ch ∈ (doRoll [] false).1, ch.content.length = 0 := by
  constructor
  · decide
  · exact ⟨chunkit [], by decide, by decide⟩

/-- C9 (amended): every chunk emitted by the chunker except the final one
is non-empty; the final chunk — the in-flight buffer emitted at EOF — may
be empty (for the empty input, or when the input ends exactly at a split
boundary). -/
theorem c9_nonfinal_chunks_nonempty (input : List Byte) (readFail : Bool) :
    ((doRoll input readFail).1.map GoChunk.content).dropLast.all
      (fun c => !c.isEmpty) = true := by
  unfold doRoll
  cases heq : rollSplit NewRollSum [] input with
  | mk cs leftover =>
    have hne := rollSplit_pieces_ne_nil input NewRollSum []
    rw [heq] at hne
    have hcomp : (GoChunk.content ∘ chunkit) = id := by funext c; rfl
    rw [List.all_eq_true]
    intro c hc
    cases readFail with
    | true =>
      simp only [if_pos, List.map_map, hcomp, List.map_id] at hc
      have : c ∈ cs := List.dropLast_subset _ hc
      have := hne c this
      simpa [List.isEmpty_iff] using this
    | false =>
      simp only [Bool.false_eq_true, if_false, List.map_map, hcomp, List.map_id,
        List.dropLast_concat] at hc
      have := hne c hc
      simpa [List.isEmpty_iff] using this

/-! ## Metadata body claims -/

/-- C8: for every ordered non-empty list of digest hex strings, the
metadata body written by `Post` is the digests joined by `"\n"` with no
trailing newline, and parsing it back by splitting on `"\n"` (as `Get`
does) returns exactly the original list: serialize-then-parse is the
identity on digest lists. -/
theorem c8_meta_body_roundtrip (l : List (List Char)) (hne : l ≠ [])
    (hdig : ∀ s ∈ l, s ≠ [] ∧ '\n' ∉ s) :
    parseChunkList (metadataBodyOf l) = l ∧
      (metadataBodyOf l).getLast? ≠ some '\n' := by
  constructor
  · exact splitChar_joinChar '\n' l hne (fun s hs => (hdig s hs).2)
  · exact joinChar_getLast '\n' l hne (fun s hs => (hdig s hs).1)
      (fun s hs => (hdig s hs).2)

theorem c8_meta_body_roundtrip_check :
    parseChunkList (metadataBodyOf [sha256Hex [], sha256Hex [3]])
        = [sha256Hex [], sha256Hex [3]] ∧
      (metadataBodyOf [sha256Hex [], sha256Hex [3]]).getLast? ≠ some '\n' :=
  c8_meta_body_roundtrip [sha256Hex [], sha256Hex [3]] (by decide) (by decide)

/-! ## Short-PID claims -/

/-- C7 (amended): for every PID argument shorter than two characters, `Get`
returns the invalid-name error, but `Delete` — which has no length guard —
panics on the out-of-range slice `name[:2]` instead of returning an
error. -/
theorem c7_short_name_get_errors_delete_panics (fs : FS) (name : List Char)
    (h : name.length < 2) :
    dedupGet fs name = .error .invalidName ∧ dedupDelete fs name = .panicked := by
  constructor
  · unfold dedupGet
    rw [if_pos h]
  · unfold dedupDelete
    rw [if_pos h]

theorem c7_short_name_get_errors_delete_panics_check :
    dedupGet emptyFS ['x'] = .error .invalidName ∧
      dedupDelete emptyFS ['x'] = .panicked :=
  c7_short_name_get_errors_delete_panics emptyFS ['x'] (by decide)

/-- C7 counterexample: on the one-character PID `"x"`, `Delete` does not
return an invalid-name error (or any error value at all): it panics with an
index-out-of-range, refuting the claim that each of `Get` and `Delete`
returns an invalid-name error for short PIDs. -/
theorem c7_delete_short_name_panics :
    dedupDelete emptyFS ['x'] = .panicked ∧
      DeleteResult.panicked ≠ .errRemove ∧
      ∀ fs2 : FS, DeleteResult.panicked ≠ .ok fs2 := by
  refine ⟨by decide, by decide, ?_⟩
  intro fs2 h
  cases h

/-! ## Chunk-store put claims -/

theorem mkdirAll_single (fs : FS) (d : List Char) (mode : Nat)
    (habs : alookup fs.dirs [d] = none) :
    alookup (mkdirAll fs [d] mode).dirs [d] = some mode := by
  have hpref : prefixesOf [d] = [[d]] := by
    unfold prefixesOf
    rfl
  unfold mkdirAll
  rw [hpref]
  simp [habs, alookup_aset]

/-- C6 (amended): the chunk-store put step treats the put as a success
without rewriting exactly when the target path already exists — regardless
of the existing file's size — and otherwise creates the intermediate
fan-out directory with mode 0700 and writes the bytes in a single
`WriteFile` call, without fsyncing the chunk file. -/
theorem c6_put_step_behavior (fs : FS) (h : List Char) (content : List Byte)
    (hlen : 3 ≤ h.length) (hs : '/' ∉ h) :
    ((alookup fs.chunks (chunkKey h)).isSome →
        storeChunkStep oracleOK 0 fs h content = (none, fs)) ∧
    (alookup fs.chunks (chunkKey h) = none →
        (storeChunkStep oracleOK 0 fs h content).1 = none ∧
        alookup (storeChunkStep oracleOK 0 fs h content).2.chunks (chunkKey h)
          = some ⟨content, false⟩ ∧
        (alookup fs.dirs (chunkDirKey h) = none →
          alookup (storeChunkStep oracleOK 0 fs h content).2.dirs (chunkDirKey h)
            = some 0o700)) := by
  constructor
  · intro hsome
    unfold storeChunkStep
    cases hl : alookup fs.chunks (chunkKey h) with
    | none => rw [hl] at hsome; cases hsome
    | some f => rfl
  · intro hnone
    unfold storeChunkStep
    rw [hnone]
    simp only [oracleOK, Bool.false_eq_true, if_false]
    refine ⟨trivial, ?_, ?_⟩
    · show alookup (writeChunkFile (mkdirAll fs (chunkDirKey h) 0o700) h content).chunks
        (chunkKey h) = some ⟨content, false⟩
      unfold writeChunkFile
      simp [alookup_aset]
    · intro hdir
      show alookup (writeChunkFile (mkdirAll fs (chunkDirKey h) 0o700) h content).dirs
        (chunkDirKey h) = some 0o700
      unfold writeChunkFile
      have hck : chunkDirKey h = [h.take 2] := by
        unfold chunkDirKey
        apply pathComponents_sepFree
        · intro ht
          have hlen2 : (h.take 2).length = 0 := by rw [ht]; rfl
          rw [List.length_take] at hlen2
          omega
        · exact take_two_no_slash h hs
      rw [hck] at hdir ⊢
      exact mkdirAll_single fs (h.take 2) 0o700 hdir

theorem c6_put_step_behavior_check :
    ((alookup emptyFS.chunks (chunkKey (List.replicate 64 'b'))).isSome →
        storeChunkStep oracleOK 0 emptyFS (List.replicate 64 'b') [5] = (none, emptyFS)) ∧
    (alookup emptyFS.chunks (chunkKey (List.replicate 64 'b')) = none →
        (storeChunkStep oracleOK 0 emptyFS (List.replicate 64 'b') [5]).1 = none ∧
        alookup (storeChunkStep oracleOK 0 emptyFS (List.replicate 64 'b') [5]).2.chunks
            (chunkKey (List.replicate 64 'b')) = some ⟨[5], false⟩ ∧
        (alookup emptyFS.dirs (chunkDirKey (List.replicate 64 'b')) = none →
          alookup (storeChunkStep oracleOK 0 emptyFS (List.replicate 64 'b') [5]).2.dirs
              (chunkDirKey (List.replicate 64 'b')) = some 0o700)) :=
  c6_put_step_behavior emptyFS (List.replicate 64 'b') [5] (by decide) (by decide)

/-- The chunk put step as the spec words it (§4.3), for comparison with
the code's `storeChunkStep`: treat the put as a success without rewriting
only when the existing file's size is non-zero; otherwise create the
directories (mode 0700), write the bytes and fsync the chunk file. -/
def putChunkSpec (fs : FS) (h : List Char) (content : List Byte) : FS :=
  match alookup fs.chunks (chunkKey h) with
  | some f =>
      if f.content.length ≠ 0 then fs
      else { mkdirAll fs (chunkDirKey h) 0o700 with
             chunks := aset (mkdirAll fs (chunkDirKey h) 0o700).chunks (chunkKey h)
               ⟨content, true⟩ }
  | none => { mkdirAll fs (chunkDirKey h) 0o700 with
              chunks := aset (mkdirAll fs (chunkDirKey h) 0o700).chunks (chunkKey h)
                ⟨content, true⟩ }

/-- C6 counterexample: with a zero-size chunk file already at the target
path, the code's put step treats the put as a success without rewriting —
although the claim requires the skip exactly when the existing size is
non-zero, so this put should have rewritten the file (as `putChunkSpec`
does); and a freshly written chunk file is never fsynced. -/
theorem c6_zero_size_not_rewritten :
    (let h : List Char := List.replicate 64 'b'
     let fsZ : FS := { emptyFS with chunks := aset emptyFS.chunks (chunkKey h) ⟨[], true⟩ }
     storeChunkStep oracleOK 0 fsZ h [5] = (none, fsZ) ∧
       (alookup fsZ.chunks (chunkKey h)).map (fun f => f.content.length) = some 0 ∧
       (storeChunkStep oracleOK 0 fsZ h [5]).2 ≠ putChunkSpec fsZ h [5]) ∧
      (alookup (storeChunkStep oracleOK 0 emptyFS (List.replicate 64 'b') [5]).2.chunks
          (chunkKey (List.replicate 64 'b'))).map ChunkFile.fsynced = some false := by
  constructor
  · refine ⟨by decide, by decide, by decide⟩
  · decide

/-! ## Post phase lemmas -/

theorem storeChunkStep_metas (o : Oracle) (idx : Nat) (fs : FS) (h : List Char)
    (c : List Byte) : (storeChunkStep o idx fs h c).2.metas = fs.metas := by
  unfold storeChunkStep
  cases alookup fs.chunks (chunkKey h) with
  | some f => rfl
  | none =>
    by_cases hm : o.chunkMkdirFails idx
    · simp [hm]
    · by_cases hw : o.chunkWriteFails idx
      · simp [hm, hw, mkdirAll]
      · simp [hm, hw, writeChunkFile, mkdirAll]

theorem storeChunksLoop_metas (o : Oracle) :
    ∀ (l : List GoChunk) (idx : Nat) (fs : FS),
      (storeChunksLoop o idx fs l).2.1.metas = fs.metas := by
  intro l
  induction l with
  | nil => intro idx fs; rfl
  | cons ch rest ih =>
    intro idx fs
    unfold storeChunksLoop
    cases hstep : storeChunkStep o idx fs ch.hash ch.content with
    | mk e fs1 =>
      have hm : fs1.metas = fs.metas := by
        have := storeChunkStep_metas o idx fs ch.hash ch.content
        rw [hstep] at this
        exact this
      cases e with
      | some e0 => simpa using hm
      | none =>
        simp only []
        rw [← hm]
        exact ih (idx + 1) fs1

theorem storeChunksLoop_cons_none (o : Oracle) (idx : Nat) (fs fs1 : FS)
    (ch : GoChunk) (rest : List GoChunk)
    (hstep : storeChunkStep o idx fs ch.hash ch.content = (none, fs1)) :
    storeChunksLoop o idx fs (ch :: rest)
      = ((storeChunksLoop o (idx + 1) fs1 rest).1,
         (storeChunksLoop o (idx + 1) fs1 rest).2.1,
         ch.hash :: (storeChunksLoop o (idx + 1) fs1 rest).2.2) := by
  conv_lhs => rw [storeChunksLoop]
  rw [hstep]

/-- Any put step preserves a stored chunk whose content is present: the
step writes only at a key whose lookup failed. -/
theorem storeChunkStep_preserve (o : Oracle) (idx : Nat) (fs : FS) (h : List Char)
    (c : List Byte) (h2 : List Char) (v : List Byte)
    (hv : chunkContentAt fs h2 = some v) :
    chunkContentAt (storeChunkStep o idx fs h c).2 h2 = some v := by
  unfold storeChunkStep
  cases hl : alookup fs.chunks (chunkKey h) with
  | some f => exact hv
  | none =>
    by_cases hm : o.chunkMkdirFails idx
    · simp only [hm, if_true]
      exact hv
    · by_cases hw : o.chunkWriteFails idx
      · simp only [hm, hw, Bool.false_eq_true, if_false, if_true]
        exact hv
      · simp only [hm, hw, Bool.false_eq_true, if_false]
        have hne : ¬ (chunkKey h = chunkKey h2) := by
          intro he
          unfold chunkContentAt at hv
          rw [← he, hl] at hv
          cases hv
        unfold chunkContentAt writeChunkFile
        simp only [alookup_aset, mkdirAll, if_neg hne]
        exact hv

theorem storeChunksLoop_preserve (o : Oracle) :
    ∀ (l : List GoChunk) (idx : Nat) (fs : FS) (h2 : List Char) (v : List Byte),
      chunkContentAt fs h2 = some v →
      chunkContentAt (storeChunksLoop o idx fs l).2.1 h2 = some v := by
  intro l
  induction l with
  | nil => intro idx fs h2 v hv; exact hv
  | cons ch rest ih =>
    intro idx fs h2 v hv
    unfold storeChunksLoop
    cases hstep : storeChunkStep o idx fs ch.hash ch.content with
    | mk e fs1 =>
      have hpres : chunkContentAt fs1 h2 = some v := by
        have := storeChunkStep_preserve o idx fs ch.hash ch.content h2 v hv
        rw [hstep] at this
        exact this
      cases e with
      | some e0 => simpa using hpres
      | none =>
        simp only []
        exact ih (idx + 1) fs1 h2 v hpres

/-- A successful put step: never errors under the all-success oracle, and
the resulting chunk map holds the chunk's content at its key (existing
matching content or the fresh write) and is unchanged elsewhere. -/
theorem storeChunkStep_ok_char (idx : Nat) (fs : FS) (ch : GoChunk)
    (hcons : chunkContentAt fs ch.hash = none ∨
      chunkContentAt fs ch.hash = some ch.content) :
    ∃ fs1, storeChunkStep oracleOK idx fs ch.hash ch.content = (none, fs1) ∧
      ∀ h2 : List Char, chunkContentAt fs1 h2 =
        if chunkKey h2 = chunkKey ch.hash then some ch.content
        else chunkContentAt fs h2 := by
  unfold storeChunkStep
  cases hl : alookup fs.chunks (chunkKey ch.hash) with
  | some f =>
    refine ⟨fs, rfl, ?_⟩
    intro h2
    by_cases hk : chunkKey h2 = chunkKey ch.hash
    · rw [if_pos hk]
      unfold chunkContentAt at hcons ⊢
      rw [hk, hl]
      rw [hl] at hcons
      simpa using hcons
    · rw [if_neg hk]
  | none =>
    simp only [oracleOK, Bool.false_eq_true, if_false]
    refine ⟨_, rfl, ?_⟩
    intro h2
    unfold chunkContentAt writeChunkFile
    simp only [alookup_aset, mkdirAll]
    by_cases hk : chunkKey h2 = chunkKey ch.hash
    · rw [if_pos hk, if_pos hk.symm]
      rfl
    · rw [if_neg hk, if_neg (fun he => hk he.symm)]

/-- The chunk-consuming loop under the all-success oracle: it reports no
error, accumulates the hashes in emission order, and afterwards every chunk
of the upload is stored with its own content — provided colliding chunk
keys within the upload carry equal content, and any pre-existing file at a
chunk's key already holds that chunk's content. -/
theorem storeChunksLoop_ok (l : List GoChunk)
    (hinj : ∀ ch ∈ l, ∀ ch2 ∈ l,
      chunkKey ch.hash = chunkKey ch2.hash → ch.content = ch2.content) :
    ∀ (idx : Nat) (fs : FS),
      (∀ ch ∈ l, chunkContentAt fs ch.hash = none ∨
        chunkContentAt fs ch.hash = some ch.content) →
      (storeChunksLoop oracleOK idx fs l).1 = none ∧
      (storeChunksLoop oracleOK idx fs l).2.2 = l.map GoChunk.hash ∧
      ∀ ch ∈ l, chunkContentAt (storeChunksLoop oracleOK idx fs l).2.1 ch.hash
        = some ch.content := by
  induction l with
  | nil =>
    intro idx fs _
    exact ⟨rfl, rfl, by intro ch hch; cases hch⟩
  | cons ch rest ih =>
    intro idx fs hcons
    obtain ⟨fs1, hstep, hchar⟩ :=
      storeChunkStep_ok_char idx fs ch (hcons ch (by simp))
    have hconsrest : ∀ ch2 ∈ rest, chunkContentAt fs1 ch2.hash = none ∨
        chunkContentAt fs1 ch2.hash = some ch2.content := by
      intro ch2 h2
      rw [hchar ch2.hash]
      by_cases hk : chunkKey ch2.hash = chunkKey ch.hash
      · rw [if_pos hk]
        right
        rw [hinj ch (by simp) ch2 (List.mem_cons_of_mem ch h2) hk.symm]
      · rw [if_neg hk]
        exact hcons ch2 (List.mem_cons_of_mem ch h2)
    have hrec := ih
      (fun a ha b hb => hinj a (List.mem_cons_of_mem ch ha) b (List.mem_cons_of_mem ch hb))
      (idx + 1) fs1 hconsrest
    rw [storeChunksLoop_cons_none oracleOK idx fs fs1 ch rest hstep]
    refine ⟨hrec.1, by rw [List.map_cons, hrec.2.1], ?_⟩
    intro ch2 hch2
    rcases List.mem_cons.mp hch2 with rfl | hmem
    · -- the head chunk: its content persists through the rest of the loop
      have hst : chunkContentAt fs1 ch2.hash = some ch2.content := by
        rw [hchar ch2.hash, if_pos rfl]
      exact storeChunksLoop_preserve oracleOK rest (idx + 1) fs1 ch2.hash
        ch2.content hst
    · exact hrec.2.2 ch2 hmem

/-- The metadata phase under the all-success oracle: it returns the PID
`<rid>/<basename>`, leaves the chunk map untouched, and records the
metadata file with the newline-joined body and the applied
modification time. -/
theorem metaPhase_ok (rid name : List Char) (chunkList : List (List Char)) (t : Int)
    (fs : FS) (habs : alookup fs.metas (metaKey rid name) = none) :
    ∃ fs2, metaPhase oracleOK rid name chunkList t fs
        = (.ok ((rid.take 2 ++ rid.drop 2) ++ '/' :: pathBase name), fs2) ∧
      fs2.chunks = fs.chunks ∧
      alookup fs2.metas (metaKey rid name)
        = some ⟨metadataBodyOf chunkList, some t⟩ := by
  unfold metaPhase
  simp only [habs, oracleOK, Bool.false_eq_true, if_false]
  refine ⟨_, rfl, ?_, ?_⟩
  · rfl
  · simp [alookup_aset]

/-- C5 (amended): whenever `Post` returns an error arising before the
metadata file is created — a chunker read error, a chunk mkdir or write
error, a random-path collision, or a failing create — the metadata map is
untouched, so no metadata record (partial or complete) exists for the
invocation's RID.  (An error in the later write, sync, close or chtimes
step can instead leave a partial or complete metadata file behind, as the
counterexample shows.) -/
theorem c5_early_error_leaves_no_meta (o : Oracle) (rid name : List Char) (fs : FS)
    (input : List Byte) (readFail : Bool) (t : Int) (e : PostErr)
    (herr : (dedupPost o rid fs name input readFail t).1 = .error e)
    (hearly : e = .chunkRead ∨ e = .chunkMkdir ∨ e = .chunkWrite ∨
      e = .alreadyExists ∨ e = .createFail) :
    (dedupPost o rid fs name input readFail t).2.metas = fs.metas := by
  unfold dedupPost at herr ⊢
  revert herr
  cases hloop : storeChunksLoop o 0 fs (doRoll input readFail).1 with
  | mk e1 p =>
    cases p with
    | mk fs1 chunkList =>
      intro herr
      have hm1 : fs1.metas = fs.metas := by
        have := storeChunksLoop_metas o (doRoll input readFail).1 0 fs
        rw [hloop] at this
        exact this
      cases e1 with
      | some e0 => exact hm1
      | none =>
        simp only [] at herr ⊢
        by_cases hr : (doRoll input readFail).2
        · simp only [hr, if_true] at herr ⊢
          exact hm1
        · simp only [hr, Bool.false_eq_true, if_false] at herr ⊢
          cases hmk : alookup fs1.metas (metaKey rid name) with
          | some mf =>
            simp only [metaPhase, hmk] at herr ⊢
            exact hm1
          | none =>
            simp only [metaPhase, hmk] at herr ⊢
            by_cases hc : o.createFails
            · simp only [hc, if_true] at herr ⊢
              simpa [mkdirAll] using hm1
            · simp only [hc, Bool.false_eq_true, if_false] at herr ⊢
              by_cases hw : o.writeFails
              · simp only [hw, if_true] at herr
                cases herr
                simp at hearly
              · simp only [hw, Bool.false_eq_true, if_false] at herr ⊢
                by_cases hs : o.syncFails
                · simp only [hs, if_true] at herr
                  cases herr
                  simp at hearly
                · simp only [hs, Bool.false_eq_true, if_false] at herr ⊢
                  by_cases hcl : o.closeFails
                  · simp only [hcl, if_true] at herr
                    cases herr
                    simp at hearly
                  · simp only [hcl, Bool.false_eq_true, if_false] at herr ⊢
                    by_cases hch : o.chtimesFails
                    · simp only [hch, if_true] at herr
                      cases herr
                      simp at hearly
                    · simp only [hch, Bool.false_eq_true, if_false] at herr
                      cases herr

/-- A concrete 64-character RID hex string for witness scenarios. -/
def ridA : List Char := List.replicate 64 'a'

/-- A concrete upload name for witness scenarios. -/
def nameA : List Char := "a/x.txt".toList

theorem c5_early_error_leaves_no_meta_check :
    (dedupPost { oracleOK with createFails := true } ridA emptyFS nameA
        [3] false 7).2.metas = emptyFS.metas :=
  c5_early_error_leaves_no_meta { oracleOK with createFails := true } ridA nameA
    emptyFS [3] false 7 .createFail (by decide) (by decide)

/-- C5 counterexample: with every operation succeeding except the final
`Chtimes`, `Post` returns an error, yet afterwards a complete metadata
record for the invocation's RID exists on disk — refuting the claim that an
erroring `Post` leaves no metadata record. -/
theorem c5_chtimes_error_leaves_meta :
    (dedupPost { oracleOK with chtimesFails := true } ridA emptyFS nameA
        [3] false 7).1 = .error .chtimesFail ∧
      (alookup (dedupPost { oracleOK with chtimesFails := true } ridA emptyFS nameA
          [3] false 7).2.metas (metaKey ridA nameA)).isSome = true := by
  constructor
  · decide
  · decide

/-! ## Digest-string facts and the round trip -/

theorem sha256Sum_length (msg : List Byte) : (sha256Sum msg).length = 32 := by
  unfold sha256Sum wordBytes
  simp

theorem sha256Hex_length (msg : List Byte) : (sha256Hex msg).length = 64 := by
  unfold sha256Hex
  rw [hexEncode_length, sha256Sum_length]

theorem hexAlphabet_plain : ∀ c ∈ hexAlphabet, c ≠ '/' ∧ c ≠ '\n' := by decide

theorem sha256Hex_no_slash (msg : List Byte) : '/' ∉ sha256Hex msg := by
  intro hmem
  exact (hexAlphabet_plain '/' (hexEncode_subset _ '/' hmem)).1 rfl

theorem sha256Hex_no_newline (msg : List Byte) : '\n' ∉ sha256Hex msg := by
  intro hmem
  exact (hexAlphabet_plain '\n' (hexEncode_subset _ '\n' hmem)).2 rfl

theorem sha256Hex_ne_nil (msg : List Byte) : sha256Hex msg ≠ [] := by
  intro h
  have := sha256Hex_length msg
  rw [h] at this
  cases this

theorem doRoll_hash (input : List Byte) (readFail : Bool) :
    ∀ ch ∈ (doRoll input readFail).1, ch.hash = sha256Hex ch.content := by
  intro ch hch
  unfold doRoll at hch
  cases heq : rollSplit NewRollSum [] input with
  | mk cs leftover =>
    rw [heq] at hch
    cases readFail with
    | true =>
      simp only [if_pos, List.mem_map] at hch
      obtain ⟨c, _, rfl⟩ := hch
      rfl
    | false =>
      simp only [Bool.false_eq_true, if_false, List.mem_map] at hch
      obtain ⟨c, _, rfl⟩ := hch
      rfl

theorem doRoll_false_ne_nil (input : List Byte) : (doRoll input false).1 ≠ [] := by
  unfold doRoll
  cases rollSplit NewRollSum [] input with
  | mk cs leftover => simp

theorem doRoll_false_snd (input : List Byte) : (doRoll input false).2 = false := by
  unfold doRoll
  cases rollSplit NewRollSum [] input with
  | mk cs leftover => simp

/-- C1 (amended): for every non-empty byte sequence B, every name with a
plain basename and every mtime t, `Post(name, B, t)` on the deduplicating
store followed by `Get` on the returned PID yields a reader over exactly B
and the stored mtime t: a single `Read` with a buffer of exactly |B| bytes
returns B.  For the empty sequence the claim fails (see the counterexample:
any read errors), and because a `Read` whose buffer overruns the end
discards its bytes and errors, "read to end" must use a buffer of exactly
|B| bytes.  Hypotheses: the RID is a 64-character hex string whose
metadata path is fresh; a pre-existing chunk file at one of this upload's
digest paths already holds that chunk's content (the store's dedup
invariant); and SHA-256 is collision-free across this upload's chunks. -/
theorem c1_post_get_roundtrip (fs : FS) (rid name : List Char) (input : List Byte)
    (t : Int)
    (hinput : input ≠ [])
    (hridLen : rid.length = 64)
    (hridHex : ∀ c ∈ rid, c ∈ hexAlphabet)
    (hbase1 : pathBase name ≠ ['/'])
    (hbase2 : pathBase name ≠ ['.'])
    (hbase3 : pathBase name ≠ ['.', '.'])
    (hmeta : alookup fs.metas (metaKey rid name) = none)
    (hchunks : ∀ ch ∈ (doRoll input false).1,
      chunkContentAt fs ch.hash = none ∨ chunkContentAt fs ch.hash = some ch.content)
    (hnocoll : ∀ ch ∈ (doRoll input false).1, ∀ ch2 ∈ (doRoll input false).1,
      ch.hash = ch2.hash → ch.content = ch2.content) :
    ∃ pid fs2 cr,
      dedupPost oracleOK rid fs name input false t = (.ok pid, fs2) ∧
      dedupGet fs2 pid = .ok (cr, some t) ∧
      chunkedRead fs2 cr input.length = .ok input := by
  set l := (doRoll input false).1 with hldef
  -- every chunk's hash is a 64-char slash- and newline-free hex string
  have hhash := doRoll_hash input false
  rw [← hldef] at hhash
  have hinj : ∀ ch ∈ l, ∀ ch2 ∈ l,
      chunkKey ch.hash = chunkKey ch2.hash → ch.content = ch2.content := by
    intro ch hch ch2 hch2 hk
    apply hnocoll ch hch ch2 hch2
    apply chunkKey_inj ch.hash ch2.hash ?_ ?_ ?_ ?_ hk
    · rw [hhash ch hch, sha256Hex_length]; omega
    · rw [hhash ch2 hch2, sha256Hex_length]; omega
    · rw [hhash ch hch]; exact sha256Hex_no_slash _
    · rw [hhash ch2 hch2]; exact sha256Hex_no_slash _
  obtain ⟨hl1, hl2, hl3⟩ := storeChunksLoop_ok l hinj 0 fs hchunks
  set fs1 := (storeChunksLoop oracleOK 0 fs l).2.1 with hfs1
  have hloopeq : storeChunksLoop oracleOK 0 fs l = (none, fs1, l.map GoChunk.hash) := by
    have heta : storeChunksLoop oracleOK 0 fs l
        = ((storeChunksLoop oracleOK 0 fs l).1, (storeChunksLoop oracleOK 0 fs l).2.1,
           (storeChunksLoop oracleOK 0 fs l).2.2) := rfl
    rw [heta, hl1, hl2]
  have hm1 : fs1.metas = fs.metas := storeChunksLoop_metas oracleOK l 0 fs
  obtain ⟨fs2, hmpeq, hmpchunks, hmplookup⟩ :=
    metaPhase_ok rid name (l.map GoChunk.hash) t fs1 (by rw [hm1]; exact hmeta)
  set fn := pathBase name with hfn
  have hridsplit : rid.take 2 ++ rid.drop 2 = rid := List.take_append_drop 2 rid
  set pid := rid ++ '/' :: fn with hpid
  have hpideq : (rid.take 2 ++ rid.drop 2) ++ '/' :: fn = pid := by rw [hridsplit]
  -- Post
  have hpost : dedupPost oracleOK rid fs name input false t = (.ok pid, fs2) := by
    unfold dedupPost
    rw [← hldef, hloopeq]
    simp only []
    rw [doRoll_false_snd]
    simp only [Bool.false_eq_true, if_false]
    rw [hmpeq, hpideq]
  -- Get: the PID parses back to the same metadata path
  have hfnne : fn ≠ [] := pathBase_ne_nil name
  have hfnslash : '/' ∉ fn := pathBase_no_slash name hbase1
  have hkey : getPathKey pid = metaKey rid name := by
    unfold getPathKey metaKey
    have ht2 : pid.take 2 = rid.take 2 :=
      List.take_append_of_le_length (by omega)
    have hd2 : pid.drop 2 = rid.drop 2 ++ '/' :: fn :=
      List.drop_append_of_le_length (by omega)
    rw [ht2, hd2, hfn]
  -- the stored chunks survive the metadata phase
  have hstored2 : ∀ ch ∈ l, chunkContentAt fs2 ch.hash = some ch.content := by
    intro ch hch
    unfold chunkContentAt
    rw [hmpchunks]
    exact hl3 ch hch
  -- reconstruct the reader
  have hbody : parseChunkList (metadataBodyOf (l.map GoChunk.hash)) = l.map GoChunk.hash := by
    apply splitChar_joinChar
    · simp [doRoll_false_ne_nil input, hldef]
    · intro s hs
      obtain ⟨ch, hch, rfl⟩ := List.mem_map.mp hs
      rw [hhash ch hch]
      exact sha256Hex_no_newline _
  have hsizes : statSizes fs2 (l.map GoChunk.hash)
      = some (l.map (fun ch => ch.content.length)) :=
    statSizes_of_stored fs2 l hstored2
  set cr : ChunkedReader :=
    ⟨0, l.map GoChunk.hash, chunkOffsetsOf (l.map (fun ch => ch.content.length))⟩
    with hcr
  have hnew : newChunkedReader fs2 (l.map GoChunk.hash) = some cr := by
    unfold newChunkedReader
    rw [hsizes]
    rfl
  have hget : dedupGet fs2 pid = .ok (cr, some t) := by
    unfold dedupGet
    rw [if_neg (by
      rw [hpid]
      simp only [List.length_append, List.length_cons]
      omega)]
    rw [hkey, hmplookup]
    simp only []
    rw [hbody, hnew]
  -- read everything back in one call
  have hread : chunkedRead fs2 cr input.length = .ok input := by
    unfold chunkedRead
    rw [hcr]
    simp only []
    have hmapmap : (l.map GoChunk.content).map List.length
        = l.map (fun ch => ch.content.length) := by
      rw [List.map_map]
      rfl
    have hflat : (l.map GoChunk.content).flatten = input := doRoll_flatten input
    have hok := readLoop_ok fs2 (l.map GoChunk.hash) (l.map GoChunk.content)
      (by simp) ?_ input.length input.length 0 [] le_rfl le_rfl ?_
    · rw [hmapmap] at hok
      rw [hok]
      simp [hflat]
    · intro i hi
      rw [List.length_map] at hi
      rw [List.getD_eq_getElem _ _ (by simpa using hi),
        List.getD_eq_getElem _ _ (by simpa using hi),
        List.getElem_map, List.getElem_map]
      exact hstored2 l[i] (l.getElem_mem hi)
    · rw [hflat]
      simp
  exact ⟨pid, fs2, cr, hpost, hget, hread⟩

theorem c1_post_get_roundtrip_check :
    ∃ pid fs2 cr,
      dedupPost oracleOK ridA emptyFS nameA [3] false 5 = (.ok pid, fs2) ∧
      dedupGet fs2 pid = .ok (cr, some 5) ∧
      chunkedRead fs2 cr ([3] : List Byte).length = .ok [3] :=
  c1_post_get_roundtrip emptyFS ridA nameA [3] 5 (by decide) (by decide) (by decide)
    (by decide) (by decide) (by decide) (by decide) (by decide) (by decide)

/-- C1 counterexample: for the empty byte sequence, `Post` succeeds and
`Get` succeeds with the stored mtime, but every `Read` with a non-empty
buffer returns the "Invalid offset" error instead of signalling a clean
end-of-stream, so the reader's contents cannot be read back: the round
trip fails for the empty sequence. -/
theorem c1_empty_input_read_fails :
    (dedupPost oracleOK ridA emptyFS nameA [] false 5).1
        = .ok (ridA ++ '/' :: "x.txt".toList) ∧
      dedupGet (dedupPost oracleOK ridA emptyFS nameA [] false 5).2
          (ridA ++ '/' :: "x.txt".toList)
        = .ok (⟨0, [sha256Hex []], [0, 0]⟩, some 5) ∧
      chunkedRead (dedupPost oracleOK ridA emptyFS nameA [] false 5).2
          ⟨0, [sha256Hex []], [0, 0]⟩ 1 = .invalidOffset ∧
      ReadResult.invalidOffset ≠ .ok [] := by
  refine ⟨by decide, by decide, by decide, by decide⟩
